import Mathlib

/-!
Verification of the changelog-generator script (`generate_changelog.py`).

Strings are modelled as `List Char`.  The script's regular expressions are
embedded operationally: `re.sub(r"\(?#\d+\)?|Merge pull request.*|from.*|PR\s*\d+", "", m)`
becomes the left-to-right scanner `subClean`, and `re.search(r"(?:#|PR\s*)(\d+)", m)`
becomes `searchPR`.  Python's `str.capitalize` (first character upper-cased,
every later character lower-cased) is `pyCapitalize`; `str.strip` is `pyStrip`.
External `git` invocations are modelled by an oracle `GitWorld` giving each
command's outcome (`Except.error` = nonzero exit status caught by `run_cmd`).
-/

deriving instance DecidableEq for Except

namespace ChangelogScript

/-- ASCII whitespace class used by Python's `str.strip` and the regex class
`\s` on ASCII input: space, tab, newline, carriage return, vertical tab,
form feed (character codes 32, 9, 10, 13, 11, 12). -/
def wsp (c : Char) : Bool :=
  c.toNat = 32 || c.toNat = 9 || c.toNat = 10 || c.toNat = 13 ||
    c.toNat = 11 || c.toNat = 12

/-- ASCII digit, the regex class `\d` on ASCII input (codes 48–57). -/
def isDigitCh (c : Char) : Bool := 48 ≤ c.toNat && c.toNat ≤ 57

/-- Python `str.lower` on one ASCII character. -/
def toLow (c : Char) : Char :=
  if 65 ≤ c.toNat ∧ c.toNat ≤ 90 then Char.ofNat (c.toNat + 32) else c

/-- Python `str.upper` on one ASCII character. -/
def toUp (c : Char) : Char :=
  if 97 ≤ c.toNat ∧ c.toNat ≤ 122 then Char.ofNat (c.toNat - 32) else c

/-- An upper-case ASCII letter (codes 65–90). -/
def isUpperA (c : Char) : Bool := 65 ≤ c.toNat && c.toNat ≤ 90

/-- Python `str.strip`: drop leading and trailing whitespace. -/
def pyStrip (s : List Char) : List Char :=
  ((s.dropWhile wsp).reverse.dropWhile wsp).reverse

/-- Python `str.capitalize`: upper-case the first character, lower-case all
the following ones. -/
def pyCapitalize : List Char → List Char
  | [] => []
  | c :: rest => toUp c :: rest.map toLow

/-- Python `s.split("\n")`. -/
def splitNl : List Char → List (List Char)
  | [] => [[]]
  | '\n' :: rest => [] :: splitNl rest
  | c :: rest =>
    match splitNl rest with
    | p :: ps => (c :: p) :: ps
    | [] => [[c]]

/-- Python `line.split("||")` (non-overlapping, left to right). -/
def splitBars : List Char → List (List Char)
  | [] => [[]]
  | '|' :: '|' :: rest => [] :: splitBars rest
  | c :: rest =>
    match splitBars rest with
    | p :: ps => (c :: p) :: ps
    | [] => [[c]]

/-- `run_cmd`: returns the command's stripped stdout, or the empty string when
the command exits nonzero (`subprocess.CalledProcessError` is swallowed). -/
def runCmd (resp : Except Unit (List Char)) : List Char :=
  match resp with
  | Except.error _ => []
  | Except.ok out => pyStrip out

/-- Remainder of `.*` in the regex: `.` does not match a newline, so the match
extends to the next newline (exclusive) or the end of the string. -/
def dropToEol (s : List Char) : List Char := s.dropWhile (fun c => c.toNat ≠ 10)

/-- Tail of the regex alternative `\(?#\d+\)?` after the `#`: one or more
digits, then an optional closing parenthesis; returns the remainder of the
string after the match, or `none` when no digit follows. -/
def dropCloseParen (u : List Char) : List Char :=
  if u.head? = some ')' then u.tail else u

def hashDigitsRem (rest : List Char) : Option (List Char) :=
  if (rest.takeWhile isDigitCh).isEmpty then none
  else some (dropCloseParen (rest.dropWhile isDigitCh))

/-- Regex alternative `\(?#\d+\)?` at the head of `s` (greedy, with the
backtracking of `\(?`: when `s` starts with `(` not followed by `#␣digits`,
the empty option cannot rescue the match because `#` cannot match `(`). -/
def altHash (s : List Char) : Option (List Char) :=
  if ("(#".toList).isPrefixOf s then hashDigitsRem (s.drop 2)
  else if ("#".toList).isPrefixOf s then hashDigitsRem (s.drop 1)
  else none

/-- Regex alternative `Merge pull request.*` at the head of `s`. -/
def altMerge (s : List Char) : Option (List Char) :=
  if ("Merge pull request".toList).isPrefixOf s then
    some (dropToEol (s.drop ("Merge pull request".toList).length))
  else none

/-- Regex alternative `from.*` at the head of `s` (case sensitive). -/
def altFromTok (s : List Char) : Option (List Char) :=
  if ("from".toList).isPrefixOf s then
    some (dropToEol (s.drop ("from".toList).length))
  else none

/-- Regex alternative `PR\s*\d+` at the head of `s`: the greedy `\s*` takes the
maximal whitespace run, and backtracking cannot help since whitespace is never
a digit. -/
def altPR (s : List Char) : Option (List Char) :=
  if ("PR".toList).isPrefixOf s then
    if ((((s.drop 2).dropWhile wsp)).takeWhile isDigitCh).isEmpty then none
    else some (((s.drop 2).dropWhile wsp).dropWhile isDigitCh)
  else none

/-- One match attempt of `\(?#\d+\)?|Merge pull request.*|from.*|PR\s*\d+` at
the head of `s`, returning the remainder after the match.  The alternatives
start with distinct characters, so Python's left-to-right preference agrees
with any order. -/
def reMatchRem (s : List Char) : Option (List Char) :=
  match altHash s with
  | some r => some r
  | none =>
    match altMerge s with
    | some r => some r
    | none =>
      match altFromTok s with
      | some r => some r
      | none => altPR s

/-- Fuelled scanner for `re.sub(pattern, "", s)`: at each position try a match;
on success continue after it, otherwise keep the character.  Every match
consumes at least one character, so fuel `s.length + 1` suffices. -/
def subCleanF : Nat → List Char → List Char
  | 0, s => s
  | _ + 1, [] => []
  | fuel + 1, c :: rest =>
    match reMatchRem (c :: rest) with
    | some rem => subCleanF fuel rem
    | none => c :: subCleanF fuel rest

/-- `re.sub(r"\(?#\d+\)?|Merge pull request.*|from.*|PR\s*\d+", "", s)`. -/
def subClean (s : List Char) : List Char := subCleanF (s.length + 1) s

/-- One match attempt of `(?:#|PR\s*)(\d+)` at the head of `s`, returning the
captured digit group. -/
def prTokenAt (s : List Char) : Option (List Char) :=
  if ("#".toList).isPrefixOf s then
    if ((s.drop 1).takeWhile isDigitCh).isEmpty then none
    else some ((s.drop 1).takeWhile isDigitCh)
  else if ("PR".toList).isPrefixOf s then
    if (((s.drop 2).dropWhile wsp).takeWhile isDigitCh).isEmpty then none
    else some (((s.drop 2).dropWhile wsp).takeWhile isDigitCh)
  else none

/-- `re.search(r"(?:#|PR\s*)(\d+)", s)`: digit group of the leftmost match. -/
def searchPR : List Char → Option (List Char)
  | [] => none
  | c :: rest =>
    match prTokenAt (c :: rest) with
    | some ds => some ds
    | none => searchPR rest

/-- `extract_pr_info`: the cleaned title and the optional PR number.  The PR
number is searched in the raw message; the title is the raw message with the
substitution pattern removed, stripped, then capitalized. -/
def extract_pr_info (message : List Char) : List Char × Option (List Char) :=
  (pyCapitalize (pyStrip (subClean message)), searchPR message)

/-- The cleaned title of a message (first component of `extract_pr_info`). -/
def cleanTitle (message : List Char) : List Char := (extract_pr_info message).1

/-- Fixed pull-request URL stem used to build links. -/
def repoUrl : List Char :=
  "https://github.com/microsoft/durabletask-dotnet/pull/".toList

/-- One rendered bullet: `- {title} by {author} ({link})` where the link is
`[#{n}]({repoUrl}{n})` when a PR number was found and empty otherwise. -/
def entryFor (title author : List Char) (prn : Option (List Char)) : List Char :=
  "- ".toList ++ title ++ " by ".toList ++ author ++ " (".toList ++
    (match prn with
     | some n => "[#".toList ++ n ++ "](".toList ++ repoUrl ++ n ++ ")".toList
     | none => []) ++ ")".toList

/-- Processing of one fetched line inside the `generate_changelog` loop:
`Except.ok none` when the line is skipped (fewer than three `||`-fields, or an
empty cleaned title), `Except.ok (some e)` for a rendered bullet, and
`Except.error ()` when the 3-tuple unpacking raises (more than three fields). -/
def lineEntry (line : List Char) : Except Unit (Option (List Char)) :=
  if (splitBars line).length < 3 then Except.ok none
  else
    match splitBars line with
    | [_, message, author] =>
      if (extract_pr_info message).1.isEmpty then Except.ok none
      else Except.ok (some
        (entryFor (extract_pr_info message).1 author (extract_pr_info message).2))
    | _ => Except.error ()

/-- The `entries` accumulator loop of `generate_changelog`. -/
def buildEntries (acc : List (List Char)) : List (List Char) → Except Unit (List (List Char))
  | [] => Except.ok acc
  | l :: ls =>
    match lineEntry l with
    | Except.error _ => Except.error ()
    | Except.ok none => buildEntries acc ls
    | Except.ok (some e) => buildEntries (acc ++ [e]) ls

/-- Python `"\n".join`. -/
def joinNl : List (List Char) → List Char
  | [] => []
  | [x] => x
  | x :: xs => x ++ '\n' :: joinNl xs

/-- The heading `## {tag}\n`. -/
def headingOf (tag : List Char) : List Char :=
  "## ".toList ++ tag ++ "\n".toList

def noCommitsMsg : List Char := "*(No commits found in range)*".toList

/-- Body of `generate_changelog` after the fetch (lines .59–.74 of the script):
the placeholder block when the fetched line list is empty, otherwise the
heading followed by the joined bullets; `Except.error` models the uncaught
unpacking exception. -/
def renderChangelog (tag : List Char) (lines : List (List Char)) :
    Except Unit (List Char) :=
  if lines.isEmpty then Except.ok (headingOf tag ++ noCommitsMsg)
  else
    match buildEntries [] lines with
    | Except.error _ => Except.error ()
    | Except.ok es => Except.ok (headingOf tag ++ joinNl es)

/-- The commit-range query built by `get_git_log`: an explicit range
`before..after` or a reference capped at the last 50 commits (`-n 50`). -/
inductive LogQuery
  | range (before after : List Char)
  | capped (ref : List Char)
deriving DecidableEq

/-- The external `git` commands the script can issue. -/
inductive GitCmd
  | listTags
  | revParseVerify (ref : List Char)
  | logQuery (q : LogQuery)
deriving DecidableEq

/-- The exact shell command string each `GitCmd` stands for. -/
def cmdString : GitCmd → List Char
  | GitCmd.listTags => "git tag --sort=-creatordate".toList
  | GitCmd.revParseVerify ref => "git rev-parse --verify ".toList ++ ref
  | GitCmd.logQuery (LogQuery.range b a) =>
    "git log ".toList ++ b ++ "..".toList ++ a ++
      " --pretty=format:\"%h||%s||%an\"".toList
  | GitCmd.logQuery (LogQuery.capped r) =>
    "git log ".toList ++ r ++ " --pretty=format:\"%h||%s||%an\"".toList ++
      " -n 50".toList

/-- Oracle for the outcomes of the external commands: `Except.error` means the
command exited nonzero, `Except.ok out` is its raw stdout. -/
structure GitWorld where
  tagListResp : Except Unit (List Char)
  revParseResp : List Char → Except Unit (List Char)
  logResp : LogQuery → Except Unit (List Char)

def refsTagsRef (tag : List Char) : List Char := "refs/tags/".toList ++ tag

/-- `tag_exists`: truthiness of `git rev-parse --verify refs/tags/{tag}`. -/
def tag_exists (w : GitWorld) (tag : List Char) : Bool :=
  !(runCmd (w.revParseResp (refsTagsRef tag))).isEmpty

/-- `branch_exists`: truthiness of `git rev-parse --verify {branch}` (defined
by the script but never called from its entry point). -/
def branch_exists (w : GitWorld) (branch : List Char) : Bool :=
  !(runCmd (w.revParseResp branch)).isEmpty

/-- Line .27: `[t for t in run_cmd("git tag --sort=-creatordate").split("\n") if t]`. -/
def parseTagList (out : List Char) : List (List Char) :=
  (splitNl out).filter (fun t => !t.isEmpty)

/-- Line .48: `[line.strip() for line in output.split("\n") if line.strip()]`. -/
def postLines (out : List Char) : List (List Char) :=
  (splitNl out).filterMap (fun l =>
    let t := pyStrip l
    if t.isEmpty then none else some t)

def mainRef : List Char := "main".toList

/-- Lines .32–.36: the predecessor tag used for the range.  When the requested
tag occurs in the list, the entry right after its first occurrence; otherwise
the second entry of the list, if any. -/
def previousTag (tags : List (List Char)) (tag : List Char) : Option (List Char) :=
  if tag ∈ tags then tags.get? (tags.indexOf tag + 1)
  else if 1 < tags.length then tags.get? 1 else none

/-- Lines .30–.44: the commit-range query chosen by `get_git_log`. -/
def chooseQuery (te : Bool) (tags : List (List Char)) (tag : List Char) : LogQuery :=
  if te then
    match previousTag tags tag with
    | some p => LogQuery.range p tag
    | none => LogQuery.capped tag
  else
    match tags.head? with
    | some lt => LogQuery.range lt mainRef
    | none => LogQuery.capped mainRef

/-- Observable outcome of `get_git_log`: the commands issued (in order), the
chosen query, whether the missing-tag warning was printed, and the fetched
lines. -/
structure LogResult where
  cmds : List GitCmd
  query : LogQuery
  warned : Bool
  lines : List (List Char)
deriving DecidableEq

/-- `get_git_log`: lists the tags, probes the requested tag, chooses the
query, runs it and post-processes its output. -/
def get_git_log (w : GitWorld) (tag : List Char) : LogResult :=
  let tags := parseTagList (runCmd w.tagListResp)
  let te := tag_exists w tag
  let q := chooseQuery te tags tag
  { cmds := [GitCmd.listTags, GitCmd.revParseVerify (refsTagsRef tag),
             GitCmd.logQuery q]
  , query := q
  , warned := !te
  , lines := postLines (runCmd (w.logResp q)) }

/-- `generate_changelog` for a tag against an oracle world. -/
def generate_changelog (w : GitWorld) (tag : List Char) : Except Unit (List Char) :=
  renderChangelog tag (get_git_log w tag).lines

/-- The fetch boundary seen by callers: post-processed lines of one command
outcome. -/
def fetchOut (resp : Except Unit (List Char)) : List (List Char) :=
  postLines (runCmd resp)

/-- The entry produced by one line, `none` when the line is skipped or raises:
declarative form of the loop body used to state order preservation. -/
def okEntry (l : List Char) : Option (List Char) :=
  match lineEntry l with
  | Except.ok (some e) => some e
  | _ => none

/-- Whether some position of `s` carries a match of the substitution pattern. -/
def hasCleanTok : List Char → Bool
  | [] => false
  | c :: rest => (reMatchRem (c :: rest)).isSome || hasCleanTok rest

/-- A `git rev-parse --verify` probe of a plain (non-`refs/tags/`) reference,
i.e. a branch-existence check as issued by `branch_exists`. -/
def isBranchVerify : GitCmd → Bool
  | GitCmd.listTags => false
  | GitCmd.revParseVerify r => !(("refs/tags/".toList).isPrefixOf r)
  | GitCmd.logQuery _ => false

/-- Both ends of the list are free of whitespace. -/
def endsOK (l : List Char) : Prop :=
  (∀ c, l.head? = some c → wsp c = false) ∧
    (∀ c, l.getLast? = some c → wsp c = false)

/-- Modelled from the claim wording: the predecessor is "the entry immediately
after it in the newest-first tag list" — the element following the first
occurrence of `tag`. -/
def afterTagInList (tag : List Char) : List (List Char) → Option (List Char)
  | [] => none
  | [_] => none
  | x :: y :: rest =>
    if x = tag then some y else afterTagInList tag (y :: rest)

/-- Modelled from the claim wording: the predecessor of `tag` — the entry
immediately after it in the newest-first list, or the second-newest tag
overall when `tag` is absent from that list. -/
def specPredecessor (tags : List (List Char)) (tag : List Char) : Option (List Char) :=
  if tag ∈ tags then afterTagInList tag tags else tags.get? 1

/-- Length of the maximal digit run at the head. -/
def digitRunLen (s : List Char) : Nat := (s.takeWhile isDigitCh).length

/-- Length of the maximal whitespace run at the head. -/
def wsRunLen (s : List Char) : Nat := (s.takeWhile wsp).length

/-- Length of the maximal newline-free run at the head (`.*` match length). -/
def lineRunLen (s : List Char) : Nat :=
  (s.takeWhile (fun c => c.toNat ≠ 10)).length

/-- One when a closing parenthesis is available for `\)?`, zero otherwise. -/
def closeParenLen (u : List Char) : Nat := if u.head? = some ')' then 1 else 0

/-- Spec reading of "parenthesized or bare `#<digits>` references": the length
of such a reference at the head of `s`. -/
def hashRefLen (s : List Char) : Option Nat :=
  if ("(#".toList).isPrefixOf s then
    if digitRunLen (s.drop 2) = 0 then none
    else some (2 + digitRunLen (s.drop 2) +
      closeParenLen ((s.drop 2).drop (digitRunLen (s.drop 2))))
  else if ("#".toList).isPrefixOf s then
    if digitRunLen (s.drop 1) = 0 then none
    else some (1 + digitRunLen (s.drop 1) +
      closeParenLen ((s.drop 1).drop (digitRunLen (s.drop 1))))
  else none

/-- Spec reading of "any text from `Merge pull request` onward" (to the end of
the line): the length of that removable span at the head of `s`. -/
def mergeTokLen (s : List Char) : Option Nat :=
  if ("Merge pull request".toList).isPrefixOf s then
    some (("Merge pull request".toList).length +
      lineRunLen (s.drop ("Merge pull request".toList).length))
  else none

/-- Spec reading of "any text from a literal `from` onward": the length of
that removable span at the head of `s`. -/
def fromTokLen (s : List Char) : Option Nat :=
  if ("from".toList).isPrefixOf s then
    some (("from".toList).length + lineRunLen (s.drop ("from".toList).length))
  else none

/-- Spec reading of "stray `PR <digits>` tokens": the length of such a token
at the head of `s`. -/
def strayPRLen (s : List Char) : Option Nat :=
  if ("PR".toList).isPrefixOf s then
    if digitRunLen ((s.drop 2).drop (wsRunLen (s.drop 2))) = 0 then none
    else some (2 + wsRunLen (s.drop 2) +
      digitRunLen ((s.drop 2).drop (wsRunLen (s.drop 2))))
  else none

/-- Length of the first removable token at the head of `s`, following the
specification's enumeration of the four removals. -/
def specTokenLen (s : List Char) : Option Nat :=
  match hashRefLen s with
  | some n => some n
  | none =>
    match mergeTokLen s with
    | some n => some n
    | none =>
      match fromTokLen s with
      | some n => some n
      | none => strayPRLen s

/-- Fuelled spec-side removal: delete the removable token at each position,
scanning left to right. -/
def specRemoveF : Nat → List Char → List Char
  | 0, s => s
  | _ + 1, [] => []
  | fuel + 1, c :: rest =>
    match specTokenLen (c :: rest) with
    | some n => specRemoveF fuel ((c :: rest).drop n)
    | none => c :: specRemoveF fuel rest

/-- The specification's removal phase: drop every `#<digits>` reference
(parenthesized or bare), every `Merge pull request...` span, every `from...`
span and every stray `PR <digits>` token, left to right. -/
def specRemove (s : List Char) : List Char := specRemoveF (s.length + 1) s

/-- Capitalization as the claim literally words it: upper-case the first
letter, keep every later character as it was. -/
def capFirstOnly : List Char → List Char
  | [] => []
  | c :: rest => toUp c :: rest

/-- Capitalization as the code behaves: upper-case the first letter and
lower-case the rest (spec-side spelling of Python `str.capitalize`). -/
def capFirstLowerRest : List Char → List Char
  | [] => []
  | c :: rest => toUp c :: rest.map toLow

/-- A world whose log query returns one malformed line. -/
def wBadLine : GitWorld :=
  { tagListResp := Except.ok ("v2\nv1".toList)
  , revParseResp := fun _ => Except.ok ("abc".toList)
  , logResp := fun _ => Except.ok ("badline".toList) }

/-- A world with two tags where every reference probe succeeds. -/
def wTwoTags : GitWorld :=
  { tagListResp := Except.ok ("v2\nv1".toList)
  , revParseResp := fun _ => Except.ok ("abc".toList)
  , logResp := fun _ => Except.ok [] }

theorem charOfNat_toNat {n : Nat} (h : n < 55296) : (Char.ofNat n).toNat = n := by
  have hv : n.isValidChar := Or.inl h
  simp [Char.ofNat, hv, Char.ofNatAux, Char.toNat, UInt32.toNat, BitVec.toNat_ofNatLt]

theorem char_toNat_lt (c : Char) : c.toNat < 1114112 := by
  rcases c.valid with h | ⟨_, h⟩
  · exact Nat.lt_trans h (by norm_num)
  · exact h

theorem toLow_toNat_hi {c : Char} (h : 65 ≤ c.toNat ∧ c.toNat ≤ 90) :
    (toLow c).toNat = c.toNat + 32 := by
  rw [toLow, if_pos h]
  exact charOfNat_toNat (by omega)

theorem toLow_eq_self {c : Char} (h : ¬(65 ≤ c.toNat ∧ c.toNat ≤ 90)) :
    toLow c = c := by
  rw [toLow, if_neg h]

theorem toUp_toNat_hi {c : Char} (h : 97 ≤ c.toNat ∧ c.toNat ≤ 122) :
    (toUp c).toNat = c.toNat - 32 := by
  rw [toUp, if_pos h]
  exact charOfNat_toNat (by omega)

theorem toUp_eq_self {c : Char} (h : ¬(97 ≤ c.toNat ∧ c.toNat ≤ 122)) :
    toUp c = c := by
  rw [toUp, if_neg h]

theorem toLow_toLow (c : Char) : toLow (toLow c) = toLow c := by
  by_cases h : 65 ≤ c.toNat ∧ c.toNat ≤ 90
  · have h2 := toLow_toNat_hi h
    exact toLow_eq_self (by omega)
  · rw [toLow_eq_self h]
    exact toLow_eq_self h

theorem toUp_toUp (c : Char) : toUp (toUp c) = toUp c := by
  by_cases h : 97 ≤ c.toNat ∧ c.toNat ≤ 122
  · have h2 := toUp_toNat_hi h
    exact toUp_eq_self (by omega)
  · rw [toUp_eq_self h]
    exact toUp_eq_self h

theorem wsp_eq_false_of_ge {c : Char} (h : 33 ≤ c.toNat) : wsp c = false := by
  simp only [wsp, Bool.or_eq_false_iff, decide_eq_false_iff_not]
  omega

theorem wsp_toLow (c : Char) : wsp (toLow c) = wsp c := by
  by_cases h : 65 ≤ c.toNat ∧ c.toNat ≤ 90
  · have h1 : wsp c = false := wsp_eq_false_of_ge (by omega)
    have h2 : wsp (toLow c) = false :=
      wsp_eq_false_of_ge (by rw [toLow_toNat_hi h]; omega)
    rw [h1, h2]
  · rw [toLow_eq_self h]

theorem wsp_toUp (c : Char) : wsp (toUp c) = wsp c := by
  by_cases h : 97 ≤ c.toNat ∧ c.toNat ≤ 122
  · have h1 : wsp c = false := wsp_eq_false_of_ge (by omega)
    have h2 : wsp (toUp c) = false :=
      wsp_eq_false_of_ge (by rw [toUp_toNat_hi h]; omega)
    rw [h1, h2]
  · rw [toUp_eq_self h]

theorem isUpperA_toLow (c : Char) : isUpperA (toLow c) = false := by
  by_cases h : 65 ≤ c.toNat ∧ c.toNat ≤ 90
  · have h2 := toLow_toNat_hi h
    simp only [isUpperA, Bool.and_eq_false_iff, decide_eq_false_iff_not]
    omega
  · rw [toLow_eq_self h]
    simp only [isUpperA, Bool.and_eq_false_iff, decide_eq_false_iff_not]
    omega

theorem head?_dropWhile_false {α : Type} {p : α → Bool} {l : List α} {c : α}
    (h : (l.dropWhile p).head? = some c) : p c = false := by
  induction l with
  | nil => exact Option.noConfusion h
  | cons x xs ih =>
    rw [List.dropWhile_cons] at h
    by_cases hx : p x
    · exact ih (by simpa [hx] using h)
    · rw [if_neg hx] at h
      have h2 : some x = some c := h
      injection h2 with h3
      subst h3
      simpa using hx

theorem dropWhile_eq_self_of_head {α : Type} {p : α → Bool} {l : List α}
    (h : ∀ c, l.head? = some c → p c = false) : l.dropWhile p = l := by
  cases l with
  | nil => rfl
  | cons x xs =>
    have hx : p x = false := h x rfl
    simp [List.dropWhile_cons, hx]

theorem getLast?_of_suffix {α : Type} {b a : List α} (hs : b <:+ a)
    (hne : b ≠ []) : b.getLast? = a.getLast? := by
  obtain ⟨pre, rfl⟩ := hs
  rw [List.getLast?_append]
  rcases hb : b.getLast? with _ | x
  · exact absurd (List.getLast?_eq_none_iff.mp hb) hne
  · rfl

theorem endsOK_pyStrip (t : List Char) : endsOK (pyStrip t) := by
  unfold pyStrip endsOK
  constructor
  · intro c hc
    rw [List.head?_reverse] at hc
    have hsf : ((t.dropWhile wsp).reverse.dropWhile wsp) <:+ (t.dropWhile wsp).reverse :=
      List.dropWhile_suffix wsp
    have hne : (t.dropWhile wsp).reverse.dropWhile wsp ≠ [] := by
      intro hnil
      rw [hnil] at hc
      simp at hc
    rw [getLast?_of_suffix hsf hne, List.getLast?_reverse] at hc
    exact head?_dropWhile_false (l := t) hc
  · intro c hc
    rw [List.getLast?_reverse] at hc
    exact head?_dropWhile_false hc

theorem pyStrip_id_of_endsOK {l : List Char} (h : endsOK l) : pyStrip l = l := by
  obtain ⟨h1, h2⟩ := h
  unfold pyStrip
  rw [dropWhile_eq_self_of_head h1]
  rw [dropWhile_eq_self_of_head (l := l.reverse) (by
    intro c hc
    rw [List.head?_reverse] at hc
    exact h2 c hc)]
  exact List.reverse_reverse l

theorem pyStrip_pyStrip (t : List Char) : pyStrip (pyStrip t) = pyStrip t :=
  pyStrip_id_of_endsOK (endsOK_pyStrip t)

theorem endsOK_pyCapitalize {l : List Char} (h : endsOK l) :
    endsOK (pyCapitalize l) := by
  obtain ⟨h1, h2⟩ := h
  cases l with
  | nil => exact ⟨fun c hc => by simp [pyCapitalize] at hc,
      fun c hc => by simp [pyCapitalize] at hc⟩
  | cons x xs =>
    constructor
    · intro c hc
      simp only [pyCapitalize, List.head?_cons, Option.some.injEq] at hc
      subst hc
      rw [wsp_toUp]
      exact h1 x rfl
    · intro c hc
      cases hxs : xs with
      | nil =>
        subst hxs
        have he : pyCapitalize [x] = [toUp x] := rfl
        rw [he] at hc
        have hc2 : some (toUp x) = some c := hc
        injection hc2 with hc3
        subst hc3
        rw [wsp_toUp]
        exact h2 x rfl
      | cons y ys =>
        subst hxs
        have hmapne : (y :: ys).map toLow ≠ [] := by simp
        have hcons : (pyCapitalize (x :: y :: ys)).getLast? =
            ((y :: ys).map toLow).getLast? := by
          show (toUp x :: (y :: ys).map toLow).getLast? = _
          have : toUp x :: (y :: ys).map toLow = [toUp x] ++ (y :: ys).map toLow := rfl
          rw [this, List.getLast?_append]
          rcases hbl : ((y :: ys).map toLow).getLast? with _ | z
          · exact absurd (List.getLast?_eq_none_iff.mp hbl) hmapne
          · rfl
        rw [hcons, List.getLast?_map] at hc
        rcases hlast : (y :: ys).getLast? with _ | z
        · rw [hlast] at hc; simp at hc
        · rw [hlast] at hc
          have hc2 : some (toLow z) = some c := hc
          injection hc2 with hc3
          subst hc3
          rw [wsp_toLow]
          refine h2 z ?_
          have : (x :: y :: ys).getLast? = (y :: ys).getLast? := by
            have : x :: y :: ys = [x] ++ (y :: ys) := rfl
            rw [this, List.getLast?_append]
            rw [hlast]
            rfl
          rw [this, hlast]

theorem pyCapitalize_idem (l : List Char) :
    pyCapitalize (pyCapitalize l) = pyCapitalize l := by
  cases l with
  | nil => rfl
  | cons x xs =>
    show toUp (toUp x) :: (xs.map toLow).map toLow = toUp x :: xs.map toLow
    rw [toUp_toUp, List.map_map]
    congr 1
    apply List.map_congr_left
    intro a _
    exact toLow_toLow a

theorem subCleanF_id : ∀ (fuel : Nat) (s : List Char), s.length < fuel →
    hasCleanTok s = false → subCleanF fuel s = s := by
  intro fuel
  induction fuel with
  | zero => intro s hf _; exact absurd hf (Nat.not_lt_zero _)
  | succ n ih =>
    intro s hf h
    cases s with
    | nil => rfl
    | cons c rest =>
      have h2 := h
      simp only [hasCleanTok, Bool.or_eq_false_iff] at h2
      obtain ⟨hm, hrest⟩ := h2
      rcases hmm : reMatchRem (c :: rest) with _ | r
      · show (match reMatchRem (c :: rest) with
          | some rem => subCleanF n rem
          | none => c :: subCleanF n rest) = c :: rest
        rw [hmm]
        have : rest.length < n := by
          simp only [List.length_cons] at hf; omega
        rw [ih rest this hrest]
      · rw [hmm] at hm; simp at hm

theorem subClean_id {s : List Char} (h : hasCleanTok s = false) :
    subClean s = s :=
  subCleanF_id (s.length + 1) s (Nat.lt_succ_self _) h

theorem dropWhile_eq_drop_len {α : Type} (p : α → Bool) (l : List α) :
    l.dropWhile p = l.drop (l.takeWhile p).length := by
  induction l with
  | nil => rfl
  | cons c rest ih =>
    by_cases h : p c
    · simp [List.dropWhile_cons, List.takeWhile_cons, h, ih]
    · simp [List.dropWhile_cons, List.takeWhile_cons, h]

theorem dropCloseParen_eq (u : List Char) :
    dropCloseParen u = u.drop (closeParenLen u) := by
  unfold dropCloseParen closeParenLen
  by_cases h : u.head? = some ')'
  · rw [if_pos h, if_pos h]
    cases u with
    | nil => rfl
    | cons x xs => rfl
  · rw [if_neg h, if_neg h]
    rfl

theorem length_eq_zero_iff_isEmpty {α : Type} (l : List α) :
    l.isEmpty = true ↔ l.length = 0 := by
  cases l <;> simp

theorem hashDigitsRem_eq (t : List Char) :
    hashDigitsRem t = if digitRunLen t = 0 then none
      else some (t.drop (digitRunLen t + closeParenLen (t.drop (digitRunLen t)))) := by
  have hd : t.dropWhile isDigitCh = t.drop (digitRunLen t) :=
    dropWhile_eq_drop_len isDigitCh t
  unfold hashDigitsRem
  by_cases h : digitRunLen t = 0
  · rw [if_pos h]
    rw [if_pos (by rw [length_eq_zero_iff_isEmpty]; exact h)]
  · rw [if_neg h]
    rw [if_neg (by rw [length_eq_zero_iff_isEmpty]; exact h)]
    rw [hd, dropCloseParen_eq, List.drop_drop]

theorem altHash_eq (s : List Char) :
    altHash s = (hashRefLen s).map (fun n => s.drop n) := by
  unfold altHash hashRefLen
  by_cases h1 : ("(#".toList).isPrefixOf s
  · rw [if_pos h1, if_pos h1, hashDigitsRem_eq]
    by_cases h2 : digitRunLen (s.drop 2) = 0
    · rw [if_pos h2, if_pos h2]; rfl
    · rw [if_neg h2, if_neg h2]
      show some _ = some _
      rw [List.drop_drop]
      congr 2
      omega
  · rw [if_neg h1, if_neg h1]
    by_cases h2 : ("#".toList).isPrefixOf s
    · rw [if_pos h2, if_pos h2, hashDigitsRem_eq]
      by_cases h3 : digitRunLen (s.drop 1) = 0
      · rw [if_pos h3, if_pos h3]; rfl
      · rw [if_neg h3, if_neg h3]
        show some _ = some _
        rw [List.drop_drop]
        congr 2
        omega
    · rw [if_neg h2, if_neg h2]; rfl

theorem altMerge_eq (s : List Char) :
    altMerge s = (mergeTokLen s).map (fun n => s.drop n) := by
  unfold altMerge mergeTokLen
  by_cases h : ("Merge pull request".toList).isPrefixOf s
  · rw [if_pos h, if_pos h]
    show some _ = some _
    unfold dropToEol lineRunLen
    rw [dropWhile_eq_drop_len, List.drop_drop]
  · rw [if_neg h, if_neg h]; rfl

theorem altFromTok_eq (s : List Char) :
    altFromTok s = (fromTokLen s).map (fun n => s.drop n) := by
  unfold altFromTok fromTokLen
  by_cases h : ("from".toList).isPrefixOf s
  · rw [if_pos h, if_pos h]
    show some _ = some _
    unfold dropToEol lineRunLen
    rw [dropWhile_eq_drop_len, List.drop_drop]
  · rw [if_neg h, if_neg h]; rfl

theorem altPR_eq (s : List Char) :
    altPR s = (strayPRLen s).map (fun n => s.drop n) := by
  unfold altPR strayPRLen
  by_cases h : ("PR".toList).isPrefixOf s
  · rw [if_pos h, if_pos h]
    have hr : (s.drop 2).dropWhile wsp = (s.drop 2).drop (wsRunLen (s.drop 2)) :=
      dropWhile_eq_drop_len wsp (s.drop 2)
    by_cases h2 : digitRunLen ((s.drop 2).drop (wsRunLen (s.drop 2))) = 0
    · rw [if_pos h2]
      rw [if_pos (by
        rw [length_eq_zero_iff_isEmpty]
        unfold digitRunLen at h2
        rw [hr]
        exact h2)]
      rfl
    · rw [if_neg h2]
      rw [if_neg (by
        rw [length_eq_zero_iff_isEmpty]
        unfold digitRunLen at h2
        rw [hr]
        exact h2)]
      show some _ = some _
      rw [hr, dropWhile_eq_drop_len isDigitCh, List.drop_drop, List.drop_drop]
      show some (List.drop (2 + (wsRunLen (s.drop 2) +
        (((s.drop 2).drop (wsRunLen (s.drop 2))).takeWhile isDigitCh).length)) s) = _
      unfold digitRunLen
      congr 2
      omega
  · rw [if_neg h, if_neg h]; rfl

theorem reMatchRem_eq (s : List Char) :
    reMatchRem s = (specTokenLen s).map (fun n => s.drop n) := by
  unfold reMatchRem specTokenLen
  rw [altHash_eq, altMerge_eq, altFromTok_eq, altPR_eq]
  rcases hashRefLen s with _ | n
  · rcases mergeTokLen s with _ | n
    · rcases fromTokLen s with _ | n
      · rfl
      · rfl
    · rfl
  · rfl

theorem subCleanF_eq_specRemoveF : ∀ (fuel : Nat) (s : List Char),
    subCleanF fuel s = specRemoveF fuel s := by
  intro fuel
  induction fuel with
  | zero => intro s; rfl
  | succ n ih =>
    intro s
    cases s with
    | nil => rfl
    | cons c rest =>
      show (match reMatchRem (c :: rest) with
        | some rem => subCleanF n rem
        | none => c :: subCleanF n rest) =
        (match specTokenLen (c :: rest) with
        | some m => specRemoveF n ((c :: rest).drop m)
        | none => c :: specRemoveF n rest)
      rw [reMatchRem_eq]
      rcases specTokenLen (c :: rest) with _ | m
      · show c :: subCleanF n rest = c :: specRemoveF n rest
        rw [ih]
      · show subCleanF n ((c :: rest).drop m) = specRemoveF n ((c :: rest).drop m)
        exact ih _

theorem subClean_eq_specRemove (s : List Char) : subClean s = specRemove s :=
  subCleanF_eq_specRemoveF (s.length + 1) s

theorem get?_indexOf_succ {tags : List (List Char)} {tag : List Char}
    (h : tag ∈ tags) :
    tags.get? (tags.indexOf tag + 1) = afterTagInList tag tags := by
  induction tags with
  | nil => exact absurd h (List.not_mem_nil tag)
  | cons x ts ih =>
    by_cases hx : x = tag
    · subst hx
      have hidx : (x :: ts).indexOf x = 0 := by
        simp [List.indexOf_cons]
      rw [hidx]
      cases ts with
      | nil => rfl
      | cons y ys =>
        show some y = afterTagInList x (x :: y :: ys)
        unfold afterTagInList
        rw [if_pos rfl]
    · have hmem : tag ∈ ts := by
        rcases List.mem_cons.mp h with h1 | h1
        · exact absurd h1.symm hx
        · exact h1
      have hbeq : (x == tag) = false := beq_eq_false_iff_ne.mpr hx
      have hidx : (x :: ts).indexOf tag = ts.indexOf tag + 1 := by
        simp [List.indexOf_cons, hbeq]
      rw [hidx]
      cases ts with
      | nil => exact absurd hmem (List.not_mem_nil tag)
      | cons y ys =>
        show (y :: ys).get? ((y :: ys).indexOf tag + 1) = _
        rw [ih hmem]
        show afterTagInList tag (y :: ys) = afterTagInList tag (x :: y :: ys)
        conv_rhs => unfold afterTagInList
        rw [if_neg hx]

theorem get?_one_of_short {tags : List (List Char)} (h : ¬1 < tags.length) :
    tags.get? 1 = none := by
  cases tags with
  | nil => rfl
  | cons x ts =>
    cases ts with
    | nil => rfl
    | cons y ys =>
      exact absurd (by simp only [List.length_cons]; omega) h

theorem previousTag_eq_spec (tags : List (List Char)) (tag : List Char) :
    previousTag tags tag = specPredecessor tags tag := by
  unfold previousTag specPredecessor
  by_cases hm : tag ∈ tags
  · rw [if_pos hm, if_pos hm]
    exact get?_indexOf_succ hm
  · rw [if_neg hm, if_neg hm]
    by_cases hl : 1 < tags.length
    · rw [if_pos hl]
    · rw [if_neg hl, get?_one_of_short hl]

theorem lineEntry_ok_of_le3 {l : List Char} (h : (splitBars l).length ≤ 3) :
    ∃ o, lineEntry l = Except.ok o := by
  unfold lineEntry
  by_cases h3 : (splitBars l).length < 3
  · rw [if_pos h3]
    exact ⟨none, rfl⟩
  · rw [if_neg h3]
    have hlen : (splitBars l).length = 3 := by omega
    obtain ⟨a, b, c, habc⟩ := List.length_eq_three.mp hlen
    rw [habc]
    show ∃ o, (if (extract_pr_info b).1.isEmpty = true then Except.ok none
      else Except.ok (some (entryFor (extract_pr_info b).1 c (extract_pr_info b).2))) =
      Except.ok o
    by_cases he : (extract_pr_info b).1.isEmpty
    · rw [if_pos he]
      exact ⟨none, rfl⟩
    · rw [if_neg he]
      exact ⟨_, rfl⟩

theorem buildEntries_app : ∀ (ls : List (List Char)) (acc : List (List Char)),
    (∀ l ∈ ls, (splitBars l).length ≤ 3) →
    buildEntries acc ls = Except.ok (acc ++ ls.filterMap okEntry) := by
  intro ls
  induction ls with
  | nil => intro acc _; simp [buildEntries]
  | cons l ls ih =>
    intro acc h
    have hl : (splitBars l).length ≤ 3 := h l (List.mem_cons_self l ls)
    have hrest : ∀ x ∈ ls, (splitBars x).length ≤ 3 :=
      fun x hx => h x (List.mem_cons_of_mem l hx)
    obtain ⟨o, ho⟩ := lineEntry_ok_of_le3 hl
    show (match lineEntry l with
      | Except.error _ => Except.error ()
      | Except.ok none => buildEntries acc ls
      | Except.ok (some e) => buildEntries (acc ++ [e]) ls) = _
    rw [ho]
    cases o with
    | none =>
      show buildEntries acc ls = _
      rw [ih acc hrest]
      have : okEntry l = none := by unfold okEntry; rw [ho]
      rw [List.filterMap_cons, this]
    | some e =>
      show buildEntries (acc ++ [e]) ls = _
      rw [ih (acc ++ [e]) hrest]
      have : okEntry l = some e := by unfold okEntry; rw [ho]
      rw [List.filterMap_cons, this, List.append_assoc]
      rfl

theorem buildEntries_all_skip : ∀ (ls : List (List Char)) (acc : List (List Char)),
    (∀ l ∈ ls, lineEntry l = Except.ok none) →
    buildEntries acc ls = Except.ok acc := by
  intro ls
  induction ls with
  | nil => intro acc _; rfl
  | cons l ls ih =>
    intro acc h
    show (match lineEntry l with
      | Except.error _ => Except.error ()
      | Except.ok none => buildEntries acc ls
      | Except.ok (some e) => buildEntries (acc ++ [e]) ls) = _
    rw [h l (List.mem_cons_self l ls)]
    exact ih acc (fun x hx => h x (List.mem_cons_of_mem l hx))

theorem mem_postLines {out l : List Char} (h : l ∈ postLines out) :
    l ≠ [] ∧ pyStrip l = l := by
  unfold postLines at h
  obtain ⟨raw, _, hraw⟩ := List.mem_filterMap.mp h
  by_cases he : (pyStrip raw).isEmpty
  · rw [if_pos he] at hraw
    exact Option.noConfusion hraw
  · rw [if_neg he] at hraw
    injection hraw with hl
    subst hl
    refine ⟨?_, pyStrip_pyStrip raw⟩
    intro hnil
    rw [hnil] at he
    exact he rfl

theorem searchPR_some : ∀ {m ds : List Char}, searchPR m = some ds →
    ∃ i, prTokenAt (m.drop i) = some ds ∧
      ∀ j, j < i → prTokenAt (m.drop j) = none := by
  intro m
  induction m with
  | nil => intro ds h; exact Option.noConfusion h
  | cons c rest ih =>
    intro ds h
    rcases hp : prTokenAt (c :: rest) with _ | ds2
    · have h2 : searchPR rest = some ds := by
        have : searchPR (c :: rest) = searchPR rest := by
          show (match prTokenAt (c :: rest) with
            | some x => some x
            | none => searchPR rest) = searchPR rest
          rw [hp]
        rw [← this]; exact h
      obtain ⟨i, hi, hj⟩ := ih h2
      refine ⟨i + 1, ?_, ?_⟩
      · rw [List.drop_succ_cons]; exact hi
      · intro j hlt
        cases j with
        | zero => exact hp
        | succ k =>
          rw [List.drop_succ_cons]
          exact hj k (by omega)
    · have : searchPR (c :: rest) = some ds2 := by
        show (match prTokenAt (c :: rest) with
          | some x => some x
          | none => searchPR rest) = some ds2
        rw [hp]
      rw [this] at h
      injection h with hds
      subst hds
      exact ⟨0, hp, fun j hj => absurd hj (Nat.not_lt_zero j)⟩

theorem searchPR_none : ∀ {m : List Char}, searchPR m = none →
    ∀ i, prTokenAt (m.drop i) = none := by
  intro m
  induction m with
  | nil =>
    intro _ i
    rw [List.drop_nil]
    rfl
  | cons c rest ih =>
    intro h i
    rcases hp : prTokenAt (c :: rest) with _ | ds2
    · have h2 : searchPR rest = none := by
        have : searchPR (c :: rest) = searchPR rest := by
          show (match prTokenAt (c :: rest) with
            | some x => some x
            | none => searchPR rest) = searchPR rest
          rw [hp]
        rw [← this]; exact h
      cases i with
      | zero => exact hp
      | succ k =>
        rw [List.drop_succ_cons]
        exact ih h2 k
    · have : searchPR (c :: rest) = some ds2 := by
        show (match prTokenAt (c :: rest) with
          | some x => some x
          | none => searchPR rest) = some ds2
        rw [hp]
      rw [this] at h
      exact Option.noConfusion h

/-- Claim C1: the commit-range query is chosen by this case analysis: when the
tag exists and a predecessor (entry right after it in the newest-first list,
or the second-newest tag when the tag is absent from the list) is found, the
query is the explicit range `previous..tag`; when the tag exists but no
predecessor does, the query caps at the last 50 commits from the tag; when the
tag does not exist but some tag does, the query is `latestTag..main` with a
warning; when no tag exists at all, the query is `main` capped at 50. -/
theorem claim_C1 (w : GitWorld) (tag : List Char) :
    (tag_exists w tag = true →
      ∀ p, specPredecessor (parseTagList (runCmd w.tagListResp)) tag = some p →
        (get_git_log w tag).query = LogQuery.range p tag) ∧
    (tag_exists w tag = true →
      specPredecessor (parseTagList (runCmd w.tagListResp)) tag = none →
        (get_git_log w tag).query = LogQuery.capped tag) ∧
    (tag_exists w tag = false →
      ∀ lt, (parseTagList (runCmd w.tagListResp)).head? = some lt →
        (get_git_log w tag).query = LogQuery.range lt mainRef ∧
          (get_git_log w tag).warned = true) ∧
    (tag_exists w tag = false → parseTagList (runCmd w.tagListResp) = [] →
      (get_git_log w tag).query = LogQuery.capped mainRef) := by
  have hq : (get_git_log w tag).query =
      chooseQuery (tag_exists w tag) (parseTagList (runCmd w.tagListResp)) tag := rfl
  have hw : (get_git_log w tag).warned = !(tag_exists w tag) := rfl
  refine ⟨?_, ?_, ?_, ?_⟩
  · intro hte p hp
    rw [hq]
    unfold chooseQuery
    rw [hte, if_pos rfl, previousTag_eq_spec, hp]
  · intro hte hp
    rw [hq]
    unfold chooseQuery
    rw [hte, if_pos rfl, previousTag_eq_spec, hp]
  · intro hte lt hlt
    constructor
    · rw [hq]
      unfold chooseQuery
      rw [hte, if_neg (by simp), hlt]
    · rw [hw, hte]
      rfl
  · intro hte htags
    rw [hq]
    unfold chooseQuery
    rw [hte, if_neg (by simp), htags]
    rfl

theorem claim_C1_wit :
    (get_git_log wTwoTags ("v2".toList)).query =
      LogQuery.range ("v1".toList) ("v2".toList) :=
  (claim_C1 wTwoTags ("v2".toList)).1 (by decide) ("v1".toList) (by decide)

/-- Claim C2 (amended): when the fetched line list is empty,
`generate_changelog` returns exactly `## <tag>` + newline +
`*(No commits found in range)*`; when the list is non-empty but every record
is skipped, it returns the heading `## <tag>` + newline with no bullets and
no placeholder. -/
theorem claim_C2 (tag : List Char) (lines : List (List Char)) :
    (lines = [] →
      renderChangelog tag lines = Except.ok (headingOf tag ++ noCommitsMsg)) ∧
    (lines ≠ [] → (∀ l ∈ lines, lineEntry l = Except.ok none) →
      renderChangelog tag lines = Except.ok (headingOf tag)) := by
  constructor
  · intro h
    subst h
    rfl
  · intro hne hall
    unfold renderChangelog
    rw [if_neg (by simpa [List.isEmpty_iff] using hne)]
    rw [buildEntries_all_skip lines [] hall]
    show Except.ok (headingOf tag ++ joinNl []) = Except.ok (headingOf tag)
    rw [show joinNl [] = [] from rfl, List.append_nil]

/-- Claim C2, counterexample to the claim as stated: a non-empty fetched list
whose single record is skipped yields just the heading, not the
`*(No commits found in range)*` placeholder. -/
theorem claim_C2_cex :
    generate_changelog wBadLine ("v1".toList) =
      Except.ok (headingOf ("v1".toList)) ∧
    headingOf ("v1".toList) ≠ headingOf ("v1".toList) ++ noCommitsMsg := by
  constructor
  · decide
  · decide

theorem claim_C2_wit :
    renderChangelog ("v1".toList) [] =
      Except.ok (headingOf ("v1".toList) ++ noCommitsMsg) ∧
    renderChangelog ("v1".toList) ["x||y".toList] =
      Except.ok (headingOf ("v1".toList)) :=
  ⟨(claim_C2 ("v1".toList) []).1 rfl,
   (claim_C2 ("v1".toList) ["x||y".toList]).2 (by decide) (by decide)⟩

/-- Claim C3 (amended): cleaning is idempotent on every message whose cleaned
title carries no further match of the substitution pattern (no `#digits`, no
`Merge pull request`, no lower-case `from`, no `PR digits`): for such a
message, cleaning the cleaned title returns it unchanged. -/
theorem claim_C3 (m : List Char) (h : hasCleanTok (cleanTitle m) = false) :
    cleanTitle (cleanTitle m) = cleanTitle m := by
  have h1 : cleanTitle (cleanTitle m) =
      pyCapitalize (pyStrip (subClean (cleanTitle m))) := rfl
  rw [h1, subClean_id h]
  have hends : endsOK (cleanTitle m) :=
    endsOK_pyCapitalize (endsOK_pyStrip (subClean m))
  rw [pyStrip_id_of_endsOK hends]
  show pyCapitalize (pyCapitalize (pyStrip (subClean m))) =
    pyCapitalize (pyStrip (subClean m))
  exact pyCapitalize_idem _

/-- Claim C3, counterexample to the claim as stated ("for every message m,
cleaning the cleaned title of m yields that cleaned title again"): cleaning
maps `X FROM y` to `X from y`, whose lower-cased `from` is removed by a second
cleaning pass. -/
theorem claim_C3_cex :
    cleanTitle (cleanTitle ("X FROM y".toList)) ≠
      cleanTitle ("X FROM y".toList) := by
  decide

theorem claim_C3_wit :
    hasCleanTok (cleanTitle ("fix bug PR 7".toList)) = false ∧
    cleanTitle (cleanTitle ("fix bug PR 7".toList)) =
      cleanTitle ("fix bug PR 7".toList) :=
  ⟨by decide, claim_C3 ("fix bug PR 7".toList) (by decide)⟩

/-- Claim C4 (amended): for every raw commit subject, the cleaned title equals
the result of removing parenthesized or bare `#digits` references,
`Merge pull request...` spans, `from...` spans and stray `PR digits` tokens,
then trimming whitespace, capitalizing the first letter and lower-casing the
remaining characters. -/
theorem claim_C4 (m : List Char) :
    cleanTitle m = capFirstLowerRest (pyStrip (specRemove m)) := by
  rw [← subClean_eq_specRemove]
  show pyCapitalize (pyStrip (subClean m)) = capFirstLowerRest (pyStrip (subClean m))
  cases pyStrip (subClean m) with
  | nil => rfl
  | cons c rest => rfl

/-- Claim C4, counterexample to the claim as stated (characters after the
first "are kept as they were in the input"): cleaning `Add API` yields
`Add api`, not `Add API`. -/
theorem claim_C4_cex :
    cleanTitle ("Add API".toList) ≠
      capFirstOnly (pyStrip (specRemove ("Add API".toList))) := by
  decide

/-- Claim C5: for a non-empty fetched sequence of three-field commit records,
the rendered block is the heading `## <tag>` followed by one bullet
`- <title> by <author> (<link>)` per record with a non-empty cleaned title, in
exactly the input order. -/
theorem claim_C5 (tag : List Char) (lines : List (List Char))
    (hne : lines ≠ []) (hwf : ∀ l ∈ lines, (splitBars l).length = 3) :
    renderChangelog tag lines =
      Except.ok (headingOf tag ++ joinNl (lines.filterMap okEntry)) := by
  unfold renderChangelog
  rw [if_neg (by simpa [List.isEmpty_iff] using hne)]
  rw [buildEntries_app lines [] (fun l hl => Nat.le_of_eq (hwf l hl))]
  rfl

theorem claim_C5_wit :
    renderChangelog ("v1.0.0".toList)
      ["abc123||Fix retry bug (#42)||Jane Doe".toList] =
    Except.ok (("## v1.0.0\n- Fix retry bug by Jane Doe " ++
      "([#42](https://github.com/microsoft/durabletask-dotnet/pull/42))").toList) := by
  have h := claim_C5 ("v1.0.0".toList)
    ["abc123||Fix retry bug (#42)||Jane Doe".toList] (by decide) (by decide)
  rw [h]
  decide

/-- Claim C6: a failed or empty command outcome yields an empty fetched
sequence rather than an error, and blank lines are dropped: every fetched
line is non-blank (already stripped and non-empty). -/
theorem claim_C6 (resp : Except Unit (List Char)) :
    (resp = Except.error () → fetchOut resp = []) ∧
    (runCmd resp = [] → fetchOut resp = []) ∧
    (∀ l ∈ fetchOut resp, l ≠ [] ∧ pyStrip l = l) := by
  refine ⟨?_, ?_, ?_⟩
  · intro h
    subst h
    rfl
  · intro h
    unfold fetchOut
    rw [h]
    rfl
  · intro l hl
    exact mem_postLines hl

theorem claim_C6_wit : fetchOut (Except.error ()) = [] :=
  (claim_C6 (Except.error ())).1 rfl

/-- Claim C7: the extracted PR number is the digit group of the leftmost match
of `(?:#|PR\s*)(\d+)` in the raw message (first position carrying a token,
scanning left to right); when no position matches, no number is extracted and
the rendered link part is empty. -/
theorem claim_C7 (m : List Char) :
    (extract_pr_info m).2 = searchPR m ∧
    (∀ ds, searchPR m = some ds →
      ∃ i, prTokenAt (m.drop i) = some ds ∧
        ∀ j, j < i → prTokenAt (m.drop j) = none) ∧
    (searchPR m = none → ∀ i, prTokenAt (m.drop i) = none) ∧
    (∀ title author, entryFor title author none =
      "- ".toList ++ title ++ " by ".toList ++ author ++ " ()".toList) := by
  refine ⟨rfl, ?_, ?_, ?_⟩
  · intro ds h
    exact searchPR_some h
  · intro h i
    exact searchPR_none h i
  · intro t a
    show ((((("- ".toList ++ t) ++ " by ".toList) ++ a) ++ " (".toList) ++ []) ++
        ")".toList =
      ((("- ".toList ++ t) ++ " by ".toList) ++ a) ++ " ()".toList
    rw [List.append_nil, List.append_assoc _ (" (".toList) (")".toList)]
    rfl

theorem claim_C7_wit :
    ∃ i, prTokenAt (("see PR 12".toList).drop i) = some ("12".toList) ∧
      ∀ j, j < i → prTokenAt (("see PR 12".toList).drop j) = none :=
  (claim_C7 ("see PR 12".toList)).2.1 ("12".toList) (by decide)

/-- Claim C8 (amended): every invocation issues exactly three external
queries, in order: the tag listing sorted by creation date descending, one
existence probe of the requested tag reference `refs/tags/<tag>`, and one log
query (range or capped at 50); no branch-reference verification is ever
issued. -/
theorem claim_C8 (w : GitWorld) (tag : List Char) :
    (get_git_log w tag).cmds =
      [GitCmd.listTags, GitCmd.revParseVerify (refsTagsRef tag),
        GitCmd.logQuery (get_git_log w tag).query] ∧
    ((get_git_log w tag).cmds.all fun c => !isBranchVerify c) = true ∧
    cmdString GitCmd.listTags = "git tag --sort=-creatordate".toList := by
  refine ⟨rfl, ?_, rfl⟩
  have hpref : (("refs/tags/".toList).isPrefixOf (refsTagsRef tag)) = true := by
    rw [List.isPrefixOf_iff_prefix]
    exact List.prefix_append _ _
  have hcmds : (get_git_log w tag).cmds = [GitCmd.listTags,
      GitCmd.revParseVerify (refsTagsRef tag),
      GitCmd.logQuery (get_git_log w tag).query] := rfl
  rw [hcmds]
  simp only [List.all_cons, List.all_nil, isBranchVerify, hpref,
    Bool.not_false, Bool.not_not, Bool.and_true, Bool.true_and]

/-- Claim C8, counterexample to the claim as stated: a complete run issues the
tag listing, one tag-reference probe and one log query, and no
branch-reference verification at all — so the four-query enumeration of the
claim (which includes a branch-existence check) is not what is issued. -/
theorem claim_C8_cex :
    (get_git_log wTwoTags ("v1".toList)).cmds =
      [GitCmd.listTags, GitCmd.revParseVerify ("refs/tags/v1".toList),
        GitCmd.logQuery (LogQuery.capped ("v1".toList))] ∧
    ((get_git_log wTwoTags ("v1".toList)).cmds.all
      fun c => !isBranchVerify c) = true := by
  constructor
  · decide
  · decide

/-- Claim C9: when every fetched line holds at most two `||` delimiters (at
most three fields), `generate_changelog` completes without raising, and every
line with fewer than three fields is skipped silently. -/
theorem claim_C9 (tag : List Char) (lines : List (List Char))
    (hwf : ∀ l ∈ lines, (splitBars l).length ≤ 3) :
    (∃ out, renderChangelog tag lines = Except.ok out) ∧
    (∀ l ∈ lines, (splitBars l).length < 3 → lineEntry l = Except.ok none) := by
  constructor
  · by_cases hne : lines = []
    · subst hne
      exact ⟨_, rfl⟩
    · refine ⟨headingOf tag ++ joinNl (lines.filterMap okEntry), ?_⟩
      unfold renderChangelog
      rw [if_neg (by simpa [List.isEmpty_iff] using hne)]
      rw [buildEntries_app lines [] hwf]
      rfl
  · intro l _ hlt
    unfold lineEntry
    rw [if_pos hlt]

theorem claim_C9_wit :
    (∃ out, renderChangelog ("v2".toList) ["onlyhash||msg".toList] =
      Except.ok out) ∧
    lineEntry ("onlyhash||msg".toList) = Except.ok none := by
  have h := claim_C9 ("v2".toList) ["onlyhash||msg".toList] (by decide)
  exact ⟨h.1, h.2 ("onlyhash||msg".toList) (by decide) (by decide)⟩

/-- Claim C10: in every non-empty cleaned title, no character after the first
is an upper-case letter — the cleaning step lower-cases the whole remainder,
so acronyms lose their capitalization. -/
theorem claim_C10 (m : List Char) (hne : cleanTitle m ≠ [])
    (c : Char) (hc : c ∈ (cleanTitle m).drop 1) : isUpperA c = false := by
  rcases hu : pyStrip (subClean m) with _ | ⟨d, rest⟩
  · have hnil : cleanTitle m = [] := by
      show pyCapitalize (pyStrip (subClean m)) = []
      rw [hu]
      rfl
    exact absurd hnil hne
  · have hct : cleanTitle m = toUp d :: rest.map toLow := by
      show pyCapitalize (pyStrip (subClean m)) = toUp d :: rest.map toLow
      rw [hu]
      rfl
    rw [hct] at hc
    have hc2 : c ∈ rest.map toLow := by simpa using hc
    obtain ⟨x, _, hx⟩ := List.mem_map.mp hc2
    rw [← hx]
    exact isUpperA_toLow x

theorem claim_C10_wit :
    cleanTitle ("Add API".toList) ≠ [] ∧ isUpperA 'p' = false :=
  ⟨by decide, claim_C10 ("Add API".toList) (by decide) 'p' (by decide)⟩

end ChangelogScript
